import Mathlib

/-!
Shallow embedding of the json-to-crystal converter.

The repository holds two implementations of the same converter:
the current one (classes Util, CrystalNamedTuple, CrystalArray,
CrystalClass, JsonToCrystal) and a legacy TypeScript near-duplicate
(class JsonToCrystal with methods parse, parseScope, parseClass,
format, crystalType, arrayType, indent).  Both are embedded below;
definitions for the legacy file carry a ts prefix.

Modelling conventions:
- JSON numbers are modelled as rationals; the JavaScript test
  val % 1 === 0 for a finite double is integrality, i.e. den = 1.
- Strings are modelled as Lean strings.  The lodash helpers
  snakeCase, camelCase, upperFirst and the word splitter they share
  are modelled faithfully for ASCII input, following the lodash v4
  source: words with no explicit pattern dispatch to a regex scanner
  whose alternatives are, in order: an optional upper followed by a
  lower run with a (break or upper or end) lookahead; an upper run
  with a (break or upper-lower or end) lookahead; an optional upper
  followed by a lower run with no lookahead; an upper run with no
  lookahead; uppercase ordinals; lowercase ordinals; digit runs.
  All ASCII non-alphanumeric characters are break characters.
  Apostrophes are stripped before splitting, so the contraction
  branches of the regex can never match and are omitted.
- Recursive procedures are written with an explicit fuel argument
  (structural recursion on the fuel) so that every definition is
  executable by the kernel; the zero-fuel branches are unreachable
  for the fuel supplied by the wrappers, which exceeds the call
  depth of the corresponding JavaScript recursion.
-/

/-! ### ASCII character classes -/

def isLowerA (c : Char) : Bool := 97 ≤ c.toNat && c.toNat ≤ 122

def isUpperA (c : Char) : Bool := 65 ≤ c.toNat && c.toNat ≤ 90

def isDigitA (c : Char) : Bool := 48 ≤ c.toNat && c.toNat ≤ 57

/-- ASCII lower-casing, as String.prototype.toLowerCase acts on ASCII. -/
def toLowerA (c : Char) : Char :=
  if 65 ≤ c.toNat ∧ c.toNat ≤ 90 then Char.ofNat (c.toNat + 32) else c

/-- ASCII upper-casing, as String.prototype.toUpperCase acts on ASCII. -/
def toUpperA (c : Char) : Char :=
  if 97 ≤ c.toNat ∧ c.toNat ≤ 122 then Char.ofNat (c.toNat - 32) else c

/-! ### The lodash word splitter (ASCII model) -/

/-- The lowercase ordinal cores of the lodash word regex:
1st, 2nd, 3rd, and dth for a digit d outside 1..3. -/
def ordPairL (dm c1 c2 : Char) : Bool :=
  match c1, c2 with
  | 's', 't' => dm = '1'
  | 'n', 'd' => dm = '2'
  | 'r', 'd' => dm = '3'
  | 't', 'h' => !(dm = '1' || dm = '2' || dm = '3')
  | _, _ => false

/-- The uppercase ordinal cores: 1ST, 2ND, 3RD, dTH. -/
def ordPairU (dm c1 c2 : Char) : Bool :=
  match c1, c2 with
  | 'S', 'T' => dm = '1'
  | 'N', 'D' => dm = '2'
  | 'R', 'D' => dm = '3'
  | 'T', 'H' => !(dm = '1' || dm = '2' || dm = '3')
  | _, _ => false

def ordSuffixL (dm : Char) : List Char → Bool
  | c1 :: c2 :: _ => ordPairL dm c1 c2
  | _ => false

def ordSuffixU (dm : Char) : List Char → Bool
  | c1 :: c2 :: _ => ordPairU dm c1 c2
  | _ => false

/-- Lookahead of the lowercase ordinal alternative: a word boundary,
an uppercase letter or an underscore; it fails exactly when the next
character is a lowercase letter or a digit. -/
def ordLookL : List Char → Bool
  | [] => true
  | c :: _ => !(isLowerA c || isDigitA c)

/-- Lookahead of the uppercase ordinal alternative: it fails exactly
when the next character is an uppercase letter or a digit. -/
def ordLookU : List Char → Bool
  | [] => true
  | c :: _ => !(isUpperA c || isDigitA c)

/-- One global scan of the lodash word regex over ASCII text.  Each
step emits the leftmost match produced by the first alternative that
matches at the current position, resolving the regex backtracking in
closed form:
- at a lowercase letter the match is the maximal lowercase run;
- at an uppercase letter followed by a lowercase letter the match is
  that letter plus the following lowercase run; at a longer uppercase
  run followed by a lowercase letter the match stops one before the
  last uppercase letter; otherwise the match is the full uppercase run;
- at a digit an ordinal (digit run plus two-letter suffix, uppercase
  alternative first) is tried, else the match is the maximal digit run;
- break characters are skipped.
Fuel decreases by one per step; every step consumes at least one
character, so fuel equal to the length of the text suffices. -/
def wordsFuel : Nat → List Char → List (List Char)
  | 0, _ => []
  | _ + 1, [] => []
  | fuel + 1, c :: cs =>
    if isLowerA c then
      ((c :: cs).takeWhile isLowerA) :: wordsFuel fuel ((c :: cs).dropWhile isLowerA)
    else if isUpperA c then
      let us := (c :: cs).takeWhile isUpperA
      let r1 := (c :: cs).dropWhile isUpperA
      match r1 with
      | d :: _ =>
        if isLowerA d then
          if us.length = 1 then
            (us ++ r1.takeWhile isLowerA) :: wordsFuel fuel (r1.dropWhile isLowerA)
          else
            (us.take (us.length - 1)) :: wordsFuel fuel (us.drop (us.length - 1) ++ r1)
        else
          us :: wordsFuel fuel r1
      | [] => [us]
    else if isDigitA c then
      let ds := (c :: cs).takeWhile isDigitA
      let r1 := (c :: cs).dropWhile isDigitA
      if ordSuffixU (ds.getLastD c) r1 && ordLookU (r1.drop 2) then
        (ds ++ r1.take 2) :: wordsFuel fuel (r1.drop 2)
      else if ordSuffixL (ds.getLastD c) r1 && ordLookL (r1.drop 2) then
        (ds ++ r1.take 2) :: wordsFuel fuel (r1.drop 2)
      else
        ds :: wordsFuel fuel r1
    else
      wordsFuel fuel cs

def wordsL (l : List Char) : List (List Char) := wordsFuel l.length l

/-- lodash strips apostrophes (U+0027 and U+2019) before splitting. -/
def stripApos (l : List Char) : List Char :=
  l.filter (fun c => !(c.toNat = 39 || c.toNat = 8217))

/-- Joining of words with single underscores, as the reduce inside
lodash snakeCase produces. -/
def joinU : List (List Char) → List Char
  | [] => []
  | [w] => w
  | w :: ws => w ++ '_' :: joinU ws

/-- lodash snakeCase: split into words, lowercase each, join with
underscores. -/
def snakeCase (s : String) : String :=
  String.mk (joinU ((wordsL (stripApos s.toList)).map (fun w => w.map toLowerA)))

def capitalizeL (w : List Char) : List Char :=
  match w with
  | [] => []
  | c :: cs => toUpperA c :: cs

/-- lodash camelCase: split into words, lowercase each, capitalize all
but the first, concatenate. -/
def camelCase (s : String) : String :=
  match (wordsL (stripApos s.toList)).map (fun w => w.map toLowerA) with
  | [] => ""
  | w :: ws => String.mk (w ++ (ws.map capitalizeL).flatten)

/-- lodash upperFirst: uppercase the first character, keep the rest. -/
def upperFirstS (s : String) : String :=
  match s.toList with
  | [] => ""
  | c :: cs => String.mk (toUpperA c :: cs)

/-! ### Key formatting (Util.formatKey and the identical legacy format) -/

/-- The digit-to-word table used for keys whose first character is a
digit. -/
def numberWordMap (c : Char) : String :=
  if c = '0' then "zero_" else if c = '1' then "one_" else if c = '2' then "two_"
  else if c = '3' then "three_" else if c = '4' then "four_" else if c = '5' then "five_"
  else if c = '6' then "six_" else if c = '7' then "seven_" else if c = '8' then "eight_"
  else if c = '9' then "nine_" else ""

/-- Util.formatKey: empty keys map to the empty string; all-digit keys
are prefixed with num; keys led by a digit have that digit replaced by
its word name plus underscore; then lodash snakeCase is applied. -/
def formatKey (s : String) : String :=
  match s.toList with
  | [] => ""
  | c :: cs =>
    if (c :: cs).all isDigitA then snakeCase ("num" ++ s)
    else if isDigitA c then snakeCase (numberWordMap c ++ String.mk cs)
    else snakeCase s

/-! ### Small list and string helpers shared by both implementations -/

/-- Array.prototype.join with a separator. -/
def joinSep (sep : String) : List String → String
  | [] => ""
  | [x] => x
  | x :: xs => x ++ sep ++ joinSep sep xs

/-- lodash uniq: keep the first occurrence of each element. -/
def uniqAux (seen : List String) : List String → List String
  | [] => []
  | x :: xs => if x ∈ seen then uniqAux seen xs else x :: uniqAux (x :: seen) xs

def uniq (l : List String) : List String := uniqAux [] l

/-- Two spaces per level, the repeat used by both indent helpers. -/
def tsIndent (tabs : Nat) : String :=
  String.mk (List.flatten (List.replicate tabs [' ', ' ']))

/-- The current implementation prefixes a line with the indentation. -/
def indentStr (s : String) (level : Nat) : String :=
  if level = 0 then s else tsIndent level ++ s

/-! ### The JSON data model -/

inductive Json where
  | null : Json
  | bool (b : Bool) : Json
  | num (q : ℚ) : Json
  | str (s : String) : Json
  | arr (elems : List Json) : Json
  | obj (fields : List (String × Json)) : Json

mutual

/-- Executable size measure on the JSON tree, used as recursion fuel
by the wrappers below. -/
def jsonSize : Json → Nat
  | .null => 1
  | .bool _ => 1
  | .num _ => 1
  | .str _ => 1
  | .arr xs => 1 + jsonSizeList xs
  | .obj ps => 1 + jsonSizePList ps

def jsonSizeList : List Json → Nat
  | [] => 1
  | v :: vs => 1 + jsonSize v + jsonSizeList vs

def jsonSizePList : List (String × Json) → Nat
  | [] => 1
  | kv :: ps => 1 + jsonSize kv.2 + jsonSizePList ps

end

def Json.objProps : Json → List (String × Json)
  | .obj ps => ps
  | _ => []

def Json.arrElems : Json → List Json
  | .arr xs => xs
  | _ => []

/-! ### Util.crystalType (current implementation scalar inferer) -/

/-- Util.crystalType: scalar type names, plus the markers array and
class for structured values.  The number branch mirrors
val % 1 === 0 (integrality) and the strict comparisons
val > -2147483648 && val < 2147483647 of the source. -/
def crystalType : Json → String
  | .null => "JSON::Any"
  | .str _ => "String"
  | .num q =>
    if q.den = 1 then
      if (-2147483648 : ℚ) < q ∧ q < (2147483647 : ℚ) then "Int32" else "Int64"
    else "Float64"
  | .bool _ => "Bool"
  | .arr _ => "array"
  | .obj _ => "class"

/-! ### CrystalNamedTuple and CrystalArray (current implementation) -/

/-- CrystalNamedTuple.toString with the default transformKeys
(Util.formatKey): each property is rendered with Util.crystalType,
so nested structured values render as the literal markers. -/
def crystalNamedTupleToString (props : List (String × Json)) : String :=
  "NamedTuple(" ++
    joinSep ", " (props.map (fun kv => formatKey kv.1 ++ ": " ++ crystalType kv.2)) ++ ")"

mutual

/-- The element mapping inside CrystalArray.toString: the result of
Util.crystalType, with the marker class replaced by an inline
CrystalNamedTuple rendering of the element and the marker array
replaced by a recursive CrystalArray rendering.  The markers arise
exactly for objects and arrays respectively. -/
def crystalElemTypeF : Nat → Json → String
  | 0, _ => ""
  | fuel + 1, v =>
    match v with
    | .obj props => crystalNamedTupleToString props
    | .arr xs => crystalArrayToStringF fuel xs
    | _ => crystalType v

/-- CrystalArray.toString: map every element to its type string,
deduplicate keeping first occurrences, fall back to JSON::Any for an
empty union, and join with the union separator inside Array(...). -/
def crystalArrayToStringF : Nat → List Json → String
  | 0, _ => ""
  | fuel + 1, xs =>
    let u := uniq (xs.map (crystalElemTypeF fuel))
    "Array(" ++ joinSep " | " (if u.isEmpty then ["JSON::Any"] else u) ++ ")"

end

def crystalElemType (v : Json) : String := crystalElemTypeF (jsonSize v) v

def crystalArrayToString (xs : List Json) : String :=
  crystalArrayToStringF (jsonSizeList xs) xs

/-! ### CrystalClass (current implementation) -/

mutual

/-- CrystalClass construction plus parse, with the default options
except for the modelled parameters: the constructor formats the class
name with upperFirst of camelCase; parse returns undefined (modelled
as none) when the object has no keys, otherwise the joined lines of
the class body.  Subclasses are created with only baseIndent passed,
so they render with default options. -/
def crystalClassParseF (aN comp : Bool) :
    Nat → String → List (String × Json) → Nat → Option String
  | 0, _, _, _ => none
  | fuel + 1, name, props, baseIndent =>
    let cname := upperFirstS (camelCase name)
    if props.length = 0 then none
    else
      let p := crystalClassItemsF aN fuel (baseIndent + 2) props.length 0 props
      some (joinSep "\n"
        ([indentStr ("class " ++ cname) baseIndent] ++ (if comp then [] else [""]) ++
          [indentStr "JSON.mapping(\x7b" (baseIndent + 1)] ++ p.1 ++
          [indentStr "\x7d)" (baseIndent + 1)] ++ (if comp then [] else [""]) ++
          p.2 ++ [indentStr "end" baseIndent] ++ (if comp then [] else [""])))

/-- The key loop of CrystalClass.parse: for every key, the formatted
key, the original-key marker when the formatted key differs, the
nilable marker, and the resolved type; nested objects register a
subclass (rendered here in place, as its later toString call computes)
whose formatted name is the type reference; nested arrays render via
CrystalArray; a comma follows every item except the last.  Undefined
subclass renderings join as empty strings. -/
def crystalClassItemsF (aN : Bool) :
    Nat → Nat → Nat → Nat → List (String × Json) → List String × List String
  | 0, _, _, _, _ => ([], [])
  | _ + 1, _, _, _, [] => ([], [])
  | fuel + 1, itemLvl, total, idx, (x, v) :: rest =>
    let key := formatKey x
    let t := crystalType v
    let p :=
      if t = "class" then
        (upperFirstS (camelCase key),
          [(crystalClassParseF false false fuel key v.objProps (itemLvl - 1)).getD ""])
      else if t = "array" then
        (crystalArrayToString v.arrElems, ([] : List String))
      else (t, [])
    let line := key ++ ": \x7b " ++
      (if key ≠ x then "key: \"" ++ x ++ "\", " else "") ++
      (if aN then "nilable: true, " else "") ++
      "type: " ++ p.1 ++ " \x7d" ++ (if idx < total - 1 then "," else "")
    let q := crystalClassItemsF aN fuel itemLvl total (idx + 1) rest
    (indentStr line itemLvl :: q.1, p.2 ++ q.2)

end

def crystalClassParse (aN comp : Bool) (name : String)
    (props : List (String × Json)) (baseIndent : Nat) : Option String :=
  crystalClassParseF aN comp (2 * jsonSizePList props + 1) name props baseIndent

/-! ### The legacy TypeScript implementation -/

/-- The legacy name check: does the first character match the regex
class of lowercase ASCII letters. -/
def headIsLowerA (s : String) : Bool :=
  match s.toList with
  | [] => false
  | c :: _ => isLowerA c

/-- One field entry of the legacy parseClass loop: indentation, the
formatted key, the opening brace, the original-key marker exactly when
the key was changed by format, the nilable marker when allNilable is
on, then the type part of the entry. -/
def tsEntry (aN : Bool) (itemLvl : Nat) (k : String) (typePart : String) : String :=
  tsIndent itemLvl ++ formatKey k ++ ": \x7b " ++
  (if k ≠ formatKey k then "key: \"" ++ k ++ "\", " else "") ++
  (if aN then "nilable: true, " else "") ++ typePart

mutual

/-- Legacy crystalType: identical to Util.crystalType on scalars, but
arrays recurse into arrayType directly instead of returning a marker. -/
def tsCrystalTypeF (bc : String) (aN : Bool) : Nat → Json → String
  | 0, _ => ""
  | fuel + 1, v =>
    match v with
    | .null => "JSON::Any"
    | .str _ => "String"
    | .num q =>
      if q.den = 1 then
        if (-2147483648 : ℚ) < q ∧ q < (2147483647 : ℚ) then "Int32" else "Int64"
      else "Float64"
    | .bool _ => "Bool"
    | .arr xs => tsArrayTypeF bc aN fuel xs
    | .obj _ => "class"

/-- Legacy arrayType: map every element through parseScope, uniq,
fall back to JSON::Any when empty, join as a union in Array(...). -/
def tsArrayTypeF (bc : String) (aN : Bool) : Nat → List Json → String
  | 0, _ => ""
  | fuel + 1, xs =>
    let u := uniq (xs.map (tsParseScopeF bc aN fuel))
    "Array(" ++ joinSep " | " (if u.isEmpty then ["JSON::Any"] else u) ++ ")"

/-- Legacy parseScope: arrays to arrayType, non-null objects to
parseClass with the instance baseClass as the name, everything else to
crystalType. -/
def tsParseScopeF (bc : String) (aN : Bool) : Nat → Json → String
  | 0, _ => ""
  | fuel + 1, v =>
    match v with
    | .arr xs => tsArrayTypeF bc aN fuel xs
    | .obj props => tsParseClassF bc aN fuel bc props 0
    | _ => tsCrystalTypeF bc aN fuel v

/-- Legacy parseClass: CamelCase the name when it starts with a
lowercase letter, emit the class header, the JSON.mapping block with
one entry per key, then the deferred subclasses joined by blank lines,
then the end line.  Field entries reference nested objects by the
original key while the subclass declaration itself is renamed. -/
def tsParseClassF (bc : String) (aN : Bool) :
    Nat → String → List (String × Json) → Nat → String
  | 0, _, _, _ => ""
  | fuel + 1, name, props, indentLevel =>
    let name := if headIsLowerA name then upperFirstS (camelCase name) else name
    let p := tsFieldsF bc aN fuel (indentLevel + 2) props
    tsIndent indentLevel ++ "class " ++ name ++ "\n\n" ++
    tsIndent (indentLevel + 1) ++ "JSON.mapping(\x7b\n" ++
    p.1 ++
    tsIndent (indentLevel + 1) ++ "\x7d)\n\n" ++
    joinSep "\n\n" p.2 ++
    tsIndent indentLevel ++ "end\n"

/-- The key loop of legacy parseClass: for each key an entry via
tsEntry; when crystalType of the value is the class marker the raw
sub-object is registered under the original key (rendered here in
place, as the later map over subclasses computes) and the entry
references the original key; otherwise the entry carries the
parseScope rendering of the value. -/
def tsFieldsF (bc : String) (aN : Bool) :
    Nat → Nat → List (String × Json) → String × List String
  | 0, _, _ => ("", [])
  | _ + 1, _, [] => ("", [])
  | fuel + 1, itemLvl, (k, v) :: rest =>
    let kind := tsCrystalTypeF bc aN fuel v
    let p :=
      if kind = "class" then
        ("type: " ++ k ++ " \x7d,\n",
          [tsParseClassF bc aN fuel k v.objProps (itemLvl - 1)])
      else
        ("type: " ++ tsParseScopeF bc aN fuel v ++ " \x7d,\n", ([] : List String))
    let q := tsFieldsF bc aN fuel itemLvl rest
    (tsEntry aN itemLvl k p.1 ++ q.1, p.2 ++ q.2)

end

def tsCrystalType (bc : String) (aN : Bool) (v : Json) : String :=
  tsCrystalTypeF bc aN (2 * jsonSize v) v

def tsArrayType (bc : String) (aN : Bool) (xs : List Json) : String :=
  tsArrayTypeF bc aN (2 * jsonSizeList xs) xs

def tsParseScope (bc : String) (aN : Bool) (v : Json) : String :=
  tsParseScopeF bc aN (2 * jsonSize v) v

/-! ### The text rewrite and the top-level parse -/

/-- The global regex replace of the literal substring .0 by .1,
scanning left to right without overlap, anywhere in the text. -/
def rewriteDotZeroL : List Char → List Char
  | [] => []
  | [c] => [c]
  | c :: c2 :: rest =>
    if c = '.' ∧ c2 = '0' then '.' :: '1' :: rewriteDotZeroL rest
    else c :: rewriteDotZeroL (c2 :: rest)

def rewriteDotZero (s : String) : String := String.mk (rewriteDotZeroL s.toList)

/-- The kinds of runtime error the top-level parse can let escape:
the native SyntaxError thrown by JSON.parse, the dedicated
JsonParseError class (defined with message Failed to parse JSON but
never constructed anywhere), and the generic Error thrown for an
unsupported top-level value. -/
inductive JsErrorKind where
  | syntaxErr : JsErrorKind
  | jsonParseErr : JsErrorKind
  | unsupportedType : JsErrorKind
deriving DecidableEq

/-- JsonToCrystal.parse, whose single argument may be a JavaScript
string (raw text, or a string produced by a previous JSON.parse) or
structured data; Json.str models both.  The isString branch rewrites
the text by the .0 to .1 replace, hands it to JSON.parse (modelled by
the parameter jp, a failure escaping as the uncaught native
SyntaxError since the source wraps nothing in try/catch), and then
re-dispatches the parsed value through parse itself (the recursive
return of parse(data) in the source), so a result that is again a
string is rewritten and parsed once more.  Arrays become a type alias
over CrystalArray and plain objects a CrystalClass (undefined, i.e.
none, for an empty object), both with no rewrite; any other value
throws the generic unsupported-type Error.  The fuel bounds the
string re-dispatch depth; the zero-fuel branch is unreachable for the
fuel the wrapper supplies, because JSON.parse can only produce a
string value at least two characters (the quotes) shorter than its
input text and the rewrite preserves length. -/
def j2cParseF (jp : String → Except Unit Json) (aN comp : Bool) (bcn : String) :
    Nat → Json → Except JsErrorKind (Option String)
  | 0, _ => .error .unsupportedType
  | fuel + 1, v =>
    match v with
    | .str s =>
      match jp (rewriteDotZero s) with
      | .error _ => .error .syntaxErr
      | .ok v2 => j2cParseF jp aN comp bcn fuel v2
    | .arr xs => .ok (some ("alias AutoGenerated = " ++ crystalArrayToString xs))
    | .obj props => .ok (crystalClassParse aN comp bcn props 0)
    | _ => .error .unsupportedType

/-- JsonToCrystal.parse on one value, with fuel exceeding the
re-dispatch depth any real JSON parser can reach on that value. -/
def j2cParse (jp : String → Except Unit Json) (aN comp : Bool) (bcn : String)
    (v : Json) : Except JsErrorKind (Option String) :=
  j2cParseF jp aN comp bcn
    (match v with
      | .str s => s.length + 1
      | _ => 1) v


/-! ### Predicates used by the statements -/

/-- Characters allowed in a snake_case identifier: lowercase ASCII
letters, digits and underscores. -/
def snakeCharB (c : Char) : Bool := isLowerA c || isDigitA c || c = '_'

/-- An already-normalized snake_case key with no leading digit: it is
nonempty, starts with a lowercase letter and uses only snake_case
characters. -/
def isSnakeIdent (s : String) : Bool :=
  match s.toList with
  | [] => false
  | c :: cs => isLowerA c && (c :: cs).all snakeCharB

/-- A nonempty run of lowercase letters. -/
def LowerRun (w : List Char) : Prop := w ≠ [] ∧ ∀ c ∈ w, isLowerA c = true

/-- A nonempty run of digits. -/
def DigitRun (w : List Char) : Prop := w ≠ [] ∧ ∀ c ∈ w, isDigitA c = true

/-- A lowercase ordinal word: a nonempty digit run followed by the
two-letter suffix matching its last digit. -/
def OrdWord (w : List Char) : Prop :=
  ∃ ds c1 c2, w = ds ++ [c1, c2] ∧ ds ≠ [] ∧ (∀ c ∈ ds, isDigitA c = true) ∧
    ordPairL (ds.getLastD '0') c1 c2 = true

/-- The shapes of words the splitter produces on snake_case text. -/
def GoodWord (w : List Char) : Prop := LowerRun w ∨ DigitRun w ∨ OrdWord w

/-- All characters of a list are snake_case characters. -/
def SnakeList (l : List Char) : Prop := ∀ c ∈ l, snakeCharB c = true

/-- The exact text the legacy parseScope emits for the nested-object
input with key user holding an object with key id. -/
def tsNestedUserOutput : String :=
  "class AutoGenerated\n\n  JSON.mapping(\x7b\n    user: \x7b type: user \x7d,\n  \x7d)\n\n  class User\n\n    JSON.mapping(\x7b\n      id: \x7b type: Int32 \x7d,\n    \x7d)\n\n  end\nend\n"

/-! ### Character class facts -/

theorem isLowerA_iff {c : Char} : isLowerA c = true ↔ 97 ≤ c.toNat ∧ c.toNat ≤ 122 := by
  simp [isLowerA]

theorem isUpperA_iff {c : Char} : isUpperA c = true ↔ 65 ≤ c.toNat ∧ c.toNat ≤ 90 := by
  simp [isUpperA]

theorem isDigitA_iff {c : Char} : isDigitA c = true ↔ 48 ≤ c.toNat ∧ c.toNat ≤ 57 := by
  simp [isDigitA]

theorem not_upper_of_lower {c : Char} (h : isLowerA c = true) : ¬ isUpperA c = true := by
  rw [isLowerA_iff] at h; rw [isUpperA_iff]; omega

theorem not_digit_of_lower {c : Char} (h : isLowerA c = true) : ¬ isDigitA c = true := by
  rw [isLowerA_iff] at h; rw [isDigitA_iff]; omega

theorem not_lower_of_digit {c : Char} (h : isDigitA c = true) : ¬ isLowerA c = true := by
  rw [isDigitA_iff] at h; rw [isLowerA_iff]; omega

theorem not_upper_of_digit {c : Char} (h : isDigitA c = true) : ¬ isUpperA c = true := by
  rw [isDigitA_iff] at h; rw [isUpperA_iff]; omega

theorem digit_eq_false_of_lower {c : Char} (h : isLowerA c = true) : isDigitA c = false :=
  Bool.eq_false_iff.mpr (not_digit_of_lower h)

theorem snakeCharB_cases {c : Char} (h : snakeCharB c = true) :
    isLowerA c = true ∨ isDigitA c = true ∨ c = '_' := by
  have h2 := h
  simp only [snakeCharB, Bool.or_eq_true, decide_eq_true_eq] at h2
  tauto

theorem toLowerA_of_not_upper {c : Char} (h : ¬ isUpperA c = true) : toLowerA c = c := by
  rw [isUpperA_iff] at h
  unfold toLowerA
  rw [if_neg (by omega)]

/-! ### Ordinal pattern facts -/

theorem ordPairL_elim {dm c1 c2 : Char} (h : ordPairL dm c1 c2 = true) :
    (c1 = 's' ∧ c2 = 't') ∨ (c1 = 'n' ∧ c2 = 'd') ∨ (c1 = 'r' ∧ c2 = 'd') ∨
      (c1 = 't' ∧ c2 = 'h') := by
  unfold ordPairL at h
  split at h
  · exact Or.inl ⟨rfl, rfl⟩
  · exact Or.inr (Or.inl ⟨rfl, rfl⟩)
  · exact Or.inr (Or.inr (Or.inl ⟨rfl, rfl⟩))
  · exact Or.inr (Or.inr (Or.inr ⟨rfl, rfl⟩))
  · exact absurd h (by simp)

theorem ordPairU_eq_false_of_snake {dm c1 c2 : Char} (h : snakeCharB c1 = true) :
    ordPairU dm c1 c2 = false := by
  unfold ordPairU
  split
  · exact absurd h (by decide)
  · exact absurd h (by decide)
  · exact absurd h (by decide)
  · exact absurd h (by decide)
  · rfl

theorem ordSuffixU_eq_false_of_snake {dm : Char} {r : List Char}
    (h : ∀ c ∈ r, snakeCharB c = true) : ordSuffixU dm r = false := by
  unfold ordSuffixU
  split
  · next c1 c2 rest => exact ordPairU_eq_false_of_snake (h c1 (by simp))
  · rfl

theorem ordSuffixL_cons_underscore {dm : Char} {t : List Char} :
    ordSuffixL dm ('_' :: t) = false := by
  cases t with
  | nil => rfl
  | cons c2 t2 => rfl

theorem ordSuffixL_nil {dm : Char} : ordSuffixL dm [] = false := rfl

theorem ordSuffixL_single {dm c : Char} : ordSuffixL dm [c] = false := rfl

/-! ### Span and getLastD helpers -/

theorem getLastD_congr {l : List Char} (h : l ≠ []) (d d' : Char) :
    l.getLastD d = l.getLastD d' := by
  rw [List.getLastD_eq_getLast?, List.getLastD_eq_getLast?, List.getLast?_eq_getLast l h]
  simp

theorem takeWhile_all_nil {p : Char → Bool} {w : List Char} (h : ∀ c ∈ w, p c = true) :
    w.takeWhile p = w ∧ w.dropWhile p = [] := by
  constructor
  · have := @List.takeWhile_append_of_pos Char p w [] h
    simpa using this
  · have := @List.dropWhile_append_of_pos Char p w [] h
    simpa using this

theorem takeWhile_all_cons_neg {p : Char → Bool} {w t : List Char} {r : Char}
    (hw : ∀ c ∈ w, p c = true) (hr : p r = false) :
    (w ++ r :: t).takeWhile p = w ∧ (w ++ r :: t).dropWhile p = r :: t := by
  constructor
  · rw [List.takeWhile_append_of_pos hw, List.takeWhile_cons_of_neg (by simp [hr])]
    simp
  · rw [List.dropWhile_append_of_pos hw, List.dropWhile_cons_of_neg (by simp [hr])]

/-! ### Words produced on snake_case text have one of three shapes -/

theorem wordsFuel_shapes :
    ∀ fuel l, l.length ≤ fuel → SnakeList l → ∀ w ∈ wordsFuel fuel l, GoodWord w := by
  intro fuel
  induction fuel with
  | zero =>
    intro l _ _ w hw
    simp [wordsFuel] at hw
  | succ fuel ih =>
    intro l hlen hsnake w hw
    cases l with
    | nil => simp [wordsFuel] at hw
    | cons c cs =>
      have hc := hsnake c (by simp)
      have hlen2 : cs.length ≤ fuel := by
        simp only [List.length_cons] at hlen; omega
      rcases snakeCharB_cases hc with hlow | hdig | hund
      · -- lowercase letter: the word is the maximal lowercase run
        simp only [wordsFuel] at hw
        rw [if_pos hlow] at hw
        rcases List.mem_cons.mp hw with rfl | hmem
        · refine Or.inl ⟨?_, ?_⟩
          · rw [List.takeWhile_cons_of_pos hlow]; simp
          · intro x hx; exact List.mem_takeWhile_imp hx
        · refine ih _ ?_ ?_ w hmem
          · rw [List.dropWhile_cons_of_pos hlow]
            exact le_trans (List.dropWhile_sublist _).length_le hlen2
          · intro x hx
            exact hsnake x (List.mem_cons_of_mem c ((by
              rw [List.dropWhile_cons_of_pos hlow] at hx
              exact (List.dropWhile_sublist _).subset hx)))
      · -- digit: an ordinal word or the maximal digit run
        simp only [wordsFuel] at hw
        rw [if_neg (not_lower_of_digit hdig), if_neg (not_upper_of_digit hdig),
          if_pos hdig] at hw
        have hr1snake : SnakeList ((c :: cs).dropWhile isDigitA) := by
          intro x hx; exact hsnake x ((List.dropWhile_sublist _).subset hx)
        have hsU : ordSuffixU (((c :: cs).takeWhile isDigitA).getLastD c)
            ((c :: cs).dropWhile isDigitA) = false :=
          ordSuffixU_eq_false_of_snake hr1snake
        rw [hsU] at hw
        simp only [Bool.false_and, Bool.false_eq_true, if_false] at hw
        have hdsne : (c :: cs).takeWhile isDigitA ≠ [] := by
          rw [List.takeWhile_cons_of_pos hdig]; simp
        have hdsdig : ∀ x ∈ (c :: cs).takeWhile isDigitA, isDigitA x = true := by
          intro x hx; exact List.mem_takeWhile_imp hx
        have hr1len : ((c :: cs).dropWhile isDigitA).length ≤ fuel := by
          rw [List.dropWhile_cons_of_pos hdig]
          exact le_trans (List.dropWhile_sublist _).length_le hlen2
        by_cases hL : (ordSuffixL (((c :: cs).takeWhile isDigitA).getLastD c)
            ((c :: cs).dropWhile isDigitA) &&
            ordLookL (((c :: cs).dropWhile isDigitA).drop 2)) = true
        · rw [if_pos hL] at hw
          rcases List.mem_cons.mp hw with rfl | hmem
          · refine Or.inr (Or.inr ?_)
            have hsuf := (Bool.and_eq_true .. ▸ hL).1
            cases hr1 : (c :: cs).dropWhile isDigitA with
            | nil => rw [hr1] at hsuf; exact absurd hsuf (by simp [ordSuffixL])
            | cons c1 r2 =>
              cases r2 with
              | nil => rw [hr1] at hsuf; exact absurd hsuf (by simp [ordSuffixL])
              | cons c2 r3 =>
                rw [hr1] at hsuf
                refine ⟨(c :: cs).takeWhile isDigitA, c1, c2, ?_, hdsne, hdsdig, ?_⟩
                · simp
                · rw [getLastD_congr hdsne '0' c]
                  exact hsuf
          · refine ih _ ?_ ?_ w hmem
            · exact le_trans (List.drop_sublist _ _).length_le hr1len
            · intro x hx
              exact hr1snake x ((List.drop_sublist _ _).subset hx)
        · rw [if_neg hL] at hw
          rcases List.mem_cons.mp hw with rfl | hmem
          · exact Or.inr (Or.inl ⟨hdsne, hdsdig⟩)
          · exact ih _ hr1len hr1snake w hmem
      · -- underscore: a break character, skipped
        subst hund
        simp only [wordsFuel] at hw
        rw [if_neg (by decide), if_neg (by decide), if_neg (by decide)] at hw
        refine ih _ hlen2 ?_ w hw
        intro x hx; exact hsnake x (List.mem_cons_of_mem _ hx)

/-! ### Rescanning the joined words gives the words back -/

theorem ordSuffixU_cons_underscore {dm : Char} {t : List Char} :
    ordSuffixU dm ('_' :: t) = false := by
  cases t with
  | nil => rfl
  | cons c2 t2 => rfl

theorem wordsFuel_nil_any (f : Nat) : wordsFuel f [] = [] := by
  cases f <;> rfl

theorem wordsFuel_underscore (f : Nat) (t : List Char) :
    wordsFuel (f + 1) ('_' :: t) = wordsFuel f t := by
  simp only [wordsFuel]
  rw [if_neg (by decide), if_neg (by decide), if_neg (by decide)]

theorem GoodWord.ne_nil {w : List Char} (h : GoodWord w) : w ≠ [] := by
  rcases h with ⟨hne, _⟩ | ⟨hne, _⟩ | ⟨ds, c1, c2, rfl, _, _, _⟩
  · exact hne
  · exact hne
  · simp

theorem joinU_cons_ex (w : List Char) (ws : List (List Char)) :
    ∃ t, joinU (w :: ws) = w ++ t := by
  cases ws with
  | nil => exact ⟨[], by simp [joinU]⟩
  | cons w2 ws2 => exact ⟨'_' :: joinU (w2 :: ws2), rfl⟩

/-- Scanning one produced word at the front of the text, followed by
nothing or by an underscore, consumes exactly that word. -/
theorem scan_goodWord_step (w rest : List Char) (fuel : Nat) (hw : GoodWord w)
    (hrest : rest = [] ∨ ∃ t, rest = '_' :: t) :
    wordsFuel (fuel + 1) (w ++ rest) = w :: wordsFuel fuel rest := by
  rcases hw with ⟨hne, hall⟩ | ⟨hne, hall⟩ | ⟨ds, c1, c2, rfl, hdsne, hdsdig, hpair⟩
  · -- a lowercase run
    cases w with
    | nil => exact absurd rfl hne
    | cons c w' =>
      have hc : isLowerA c = true := hall c (by simp)
      have hspan : ((c :: w') ++ rest).takeWhile isLowerA = c :: w' ∧
          ((c :: w') ++ rest).dropWhile isLowerA = rest := by
        rcases hrest with rfl | ⟨t, rfl⟩
        · rw [List.append_nil]; exact takeWhile_all_nil hall
        · exact takeWhile_all_cons_neg hall (by decide)
      rw [List.cons_append]
      simp only [wordsFuel]
      rw [if_pos hc]
      rw [show (c : Char) :: (w' ++ rest) = (c :: w') ++ rest from rfl]
      rw [hspan.1, hspan.2]
  · -- a digit run
    cases w with
    | nil => exact absurd rfl hne
    | cons c w' =>
      have hc : isDigitA c = true := hall c (by simp)
      have hspan : ((c :: w') ++ rest).takeWhile isDigitA = c :: w' ∧
          ((c :: w') ++ rest).dropWhile isDigitA = rest := by
        rcases hrest with rfl | ⟨t, rfl⟩
        · rw [List.append_nil]; exact takeWhile_all_nil hall
        · exact takeWhile_all_cons_neg hall (by decide)
      have hU : ordSuffixU ((c :: w').getLastD c) rest = false := by
        rcases hrest with rfl | ⟨t, rfl⟩
        · rfl
        · exact ordSuffixU_cons_underscore
      have hL : ordSuffixL ((c :: w').getLastD c) rest = false := by
        rcases hrest with rfl | ⟨t, rfl⟩
        · rfl
        · exact ordSuffixL_cons_underscore
      rw [List.cons_append]
      simp only [wordsFuel]
      rw [if_neg (not_lower_of_digit hc), if_neg (not_upper_of_digit hc), if_pos hc]
      rw [show (c : Char) :: (w' ++ rest) = (c :: w') ++ rest from rfl]
      rw [hspan.1, hspan.2, hU, hL]
      simp only [Bool.false_and, Bool.false_eq_true, if_false]
  · -- an ordinal word
    cases ds with
    | nil => exact absurd rfl hdsne
    | cons d ds' =>
      have hd : isDigitA d = true := hdsdig d (by simp)
      have hc1 : isDigitA c1 = false := by
        rcases ordPairL_elim hpair with ⟨rfl, rfl⟩ | ⟨rfl, rfl⟩ | ⟨rfl, rfl⟩ | ⟨rfl, rfl⟩ <;>
          decide
      have hassoc : ((d :: ds') ++ [c1, c2]) ++ rest = (d :: ds') ++ (c1 :: c2 :: rest) := by
        simp
      have hspan : ((d :: ds') ++ (c1 :: c2 :: rest)).takeWhile isDigitA = d :: ds' ∧
          ((d :: ds') ++ (c1 :: c2 :: rest)).dropWhile isDigitA = c1 :: c2 :: rest :=
        takeWhile_all_cons_neg hdsdig hc1
      have hU : ordSuffixU ((d :: ds').getLastD d) (c1 :: c2 :: rest) = false := by
        show ordPairU ((d :: ds').getLastD d) c1 c2 = false
        rcases ordPairL_elim hpair with ⟨rfl, rfl⟩ | ⟨rfl, rfl⟩ | ⟨rfl, rfl⟩ | ⟨rfl, rfl⟩ <;> rfl
      have hLpair : ordSuffixL ((d :: ds').getLastD d) (c1 :: c2 :: rest) = true := by
        show ordPairL ((d :: ds').getLastD d) c1 c2 = true
        rw [getLastD_congr hdsne d '0']
        exact hpair
      have hlook : ordLookL ((c1 :: c2 :: rest).drop 2) = true := by
        rcases hrest with rfl | ⟨t, rfl⟩
        · rfl
        · rfl
      rw [hassoc, List.cons_append]
      simp only [wordsFuel]
      rw [if_neg (not_lower_of_digit hd), if_neg (not_upper_of_digit hd), if_pos hd]
      rw [show (d : Char) :: (ds' ++ (c1 :: c2 :: rest)) = (d :: ds') ++ (c1 :: c2 :: rest)
        from rfl]
      rw [hspan.1, hspan.2, hU, hLpair, hlook]
      simp

/-- Rescanning the underscore-joined words of snake_case text yields
exactly those words again. -/
theorem wordsFuel_rescan :
    ∀ ws fuel, (joinU ws).length ≤ fuel → (∀ w ∈ ws, GoodWord w) →
      wordsFuel fuel (joinU ws) = ws := by
  intro ws
  induction ws with
  | nil =>
    intro fuel _ _
    exact wordsFuel_nil_any fuel
  | cons w ws ih =>
    intro fuel hlen hgood
    have hwgood : GoodWord w := hgood w (by simp)
    have hwne : w ≠ [] := hwgood.ne_nil
    have hwpos : 1 ≤ w.length := by
      cases w with
      | nil => exact absurd rfl hwne
      | cons a l => simp
    cases ws with
    | nil =>
      have h1 : joinU [w] = w := by simp [joinU]
      rw [h1] at hlen ⊢
      obtain ⟨f, rfl⟩ : ∃ f, fuel = f + 1 := ⟨fuel - 1, by omega⟩
      have hstep := scan_goodWord_step w [] f hwgood (Or.inl rfl)
      rw [List.append_nil] at hstep
      rw [hstep, wordsFuel_nil_any f]
    | cons w2 ws2 =>
      have h1 : joinU (w :: w2 :: ws2) = w ++ '_' :: joinU (w2 :: ws2) := rfl
      have hw2pos : 1 ≤ (joinU (w2 :: ws2)).length := by
        obtain ⟨t, ht⟩ := joinU_cons_ex w2 ws2
        have : w2 ≠ [] := (hgood w2 (by simp)).ne_nil
        cases w2 with
        | nil => exact absurd rfl this
        | cons a l => simp [ht]
      rw [h1] at hlen ⊢
      rw [List.length_append, List.length_cons] at hlen
      obtain ⟨f, rfl⟩ : ∃ f, fuel = f + 1 := ⟨fuel - 1, by omega⟩
      rw [scan_goodWord_step w ('_' :: joinU (w2 :: ws2)) f hwgood
        (Or.inr ⟨joinU (w2 :: ws2), rfl⟩)]
      obtain ⟨f2, rfl⟩ : ∃ f2, f = f2 + 1 := ⟨f - 1, by omega⟩
      rw [wordsFuel_underscore f2 (joinU (w2 :: ws2))]
      rw [ih f2 (by omega) (fun x hx => hgood x (List.mem_cons_of_mem w hx))]

/-! ### snakeCase and formatKey on snake_case keys -/

theorem GoodWord.chars {w : List Char} (h : GoodWord w) :
    ∀ c ∈ w, (isLowerA c || isDigitA c) = true := by
  rcases h with ⟨_, hall⟩ | ⟨_, hall⟩ | ⟨ds, c1, c2, rfl, _, hds, hpair⟩
  · intro c hc; simp [hall c hc]
  · intro c hc; simp [hall c hc]
  · intro c hc
    rcases List.mem_append.mp hc with hc1 | hc2
    · simp [hds c hc1]
    · have hlo : isLowerA c1 = true ∧ isLowerA c2 = true := by
        rcases ordPairL_elim hpair with ⟨h1, h2⟩ | ⟨h1, h2⟩ | ⟨h1, h2⟩ | ⟨h1, h2⟩ <;>
          rw [h1, h2] <;> exact ⟨by decide, by decide⟩
      simp only [List.mem_cons, List.not_mem_nil, or_false] at hc2
      rcases hc2 with rfl | rfl
      · simp [hlo.1]
      · simp [hlo.2]

theorem map_toLowerA_id {w : List Char}
    (h : ∀ c ∈ w, (isLowerA c || isDigitA c) = true) : w.map toLowerA = w := by
  calc w.map toLowerA = w.map id := by
        refine List.map_congr_left ?_
        intro c hc
        rcases Bool.or_eq_true .. ▸ h c hc with h1 | h1
        · exact toLowerA_of_not_upper (not_upper_of_lower h1)
        · exact toLowerA_of_not_upper (not_upper_of_digit h1)
    _ = w := List.map_id w

theorem stripApos_snake {l : List Char} (h : SnakeList l) : stripApos l = l := by
  unfold stripApos
  rw [List.filter_eq_self]
  intro c hc
  have h2 : c.toNat ≠ 39 ∧ c.toNat ≠ 8217 := by
    rcases snakeCharB_cases (h c hc) with h1 | h1 | rfl
    · rw [isLowerA_iff] at h1; omega
    · rw [isDigitA_iff] at h1; omega
    · exact ⟨by decide, by decide⟩
  simp [h2.1, h2.2]

theorem snakeCase_of_snake {s : String} (h : SnakeList s.toList) :
    snakeCase s = String.mk (joinU (wordsL s.toList)) := by
  unfold snakeCase
  rw [stripApos_snake h]
  have hsh : ∀ w ∈ wordsL s.toList, GoodWord w :=
    wordsFuel_shapes s.toList.length s.toList le_rfl h
  have hmap : (wordsL s.toList).map (fun w => w.map toLowerA) = wordsL s.toList := by
    calc (wordsL s.toList).map (fun w => w.map toLowerA)
        = (wordsL s.toList).map id :=
          List.map_congr_left (fun w hw => map_toLowerA_id (hsh w hw).chars)
      _ = wordsL s.toList := List.map_id _
  rw [hmap]

theorem isSnakeIdent_elim {s : String} (hs : isSnakeIdent s = true) :
    ∃ c cs, s.toList = c :: cs ∧ isLowerA c = true ∧ SnakeList s.toList := by
  unfold isSnakeIdent at hs
  split at hs
  · exact absurd hs (by simp)
  · next c cs heq =>
    rw [Bool.and_eq_true] at hs
    refine ⟨c, cs, heq, hs.1, ?_⟩
    intro x hx
    rw [heq] at hx
    exact List.all_eq_true.mp hs.2 x hx

theorem formatKey_of_snake {s : String} (hs : isSnakeIdent s = true) :
    formatKey s = snakeCase s := by
  obtain ⟨c, cs, heq, hlow, _⟩ := isSnakeIdent_elim hs
  unfold formatKey
  split
  · next heq2 => rw [heq] at heq2; cases heq2
  · next c' cs' heq2 =>
    rw [heq] at heq2
    cases heq2
    rw [List.all_cons, digit_eq_false_of_lower hlow]
    simp only [Bool.false_and, Bool.false_eq_true, if_false]

theorem mem_joinU {c : Char} {ws : List (List Char)} (h : c ∈ joinU ws) :
    (∃ w ∈ ws, c ∈ w) ∨ c = '_' := by
  induction ws with
  | nil => simp [joinU] at h
  | cons w ws ih =>
    cases ws with
    | nil =>
      simp only [joinU] at h
      exact Or.inl ⟨w, by simp, h⟩
    | cons w2 ws2 =>
      rw [show joinU (w :: w2 :: ws2) = w ++ '_' :: joinU (w2 :: ws2) from rfl] at h
      rcases List.mem_append.mp h with h1 | h1
      · exact Or.inl ⟨w, by simp, h1⟩
      · rcases List.mem_cons.mp h1 with rfl | h2
        · exact Or.inr rfl
        · rcases ih h2 with ⟨w', hw', hc'⟩ | h3
          · exact Or.inl ⟨w', List.mem_cons_of_mem w hw', hc'⟩
          · exact Or.inr h3

theorem formatKey_idem_snake {s : String} (hs : isSnakeIdent s = true) :
    formatKey (formatKey s) = formatKey s := by
  obtain ⟨c, cs, heq, hlow, hsl⟩ := isSnakeIdent_elim hs
  have h1 : formatKey s = String.mk (joinU (wordsL s.toList)) :=
    (formatKey_of_snake hs).trans (snakeCase_of_snake hsl)
  have hsh : ∀ w ∈ wordsL s.toList, GoodWord w :=
    wordsFuel_shapes s.toList.length s.toList le_rfl hsl
  -- the joined output is again a snake_case identifier led by c
  have hslt : SnakeList (joinU (wordsL s.toList)) := by
    intro x hx
    rcases mem_joinU hx with ⟨w, hw, hxw⟩ | rfl
    · have := (hsh w hw).chars x hxw
      simp only [snakeCharB]
      rcases Bool.or_eq_true .. ▸ this with h2 | h2 <;> simp [h2]
    · decide
  have hws : ∃ ws', wordsL s.toList = (c :: cs.takeWhile isLowerA) :: ws' := by
    unfold wordsL
    rw [heq, List.length_cons]
    simp only [wordsFuel]
    rw [if_pos hlow, List.takeWhile_cons_of_pos hlow]
    exact ⟨_, rfl⟩
  obtain ⟨ws', hws⟩ := hws
  have hhead : ∃ t', joinU (wordsL s.toList) = c :: t' := by
    rw [hws]
    obtain ⟨t, ht⟩ := joinU_cons_ex (c :: cs.takeWhile isLowerA) ws'
    exact ⟨cs.takeWhile isLowerA ++ t, by rw [ht]; simp⟩
  obtain ⟨t', ht'⟩ := hhead
  have hsnakeT : isSnakeIdent (String.mk (joinU (wordsL s.toList))) = true := by
    rw [ht']
    show (isLowerA c && (c :: t').all snakeCharB) = true
    rw [Bool.and_eq_true]
    refine ⟨hlow, List.all_eq_true.mpr ?_⟩
    intro x hx
    have : x ∈ joinU (wordsL s.toList) := by rw [ht']; exact hx
    exact hslt x this
  have h2 : formatKey (String.mk (joinU (wordsL s.toList))) =
      snakeCase (String.mk (joinU (wordsL s.toList))) := formatKey_of_snake hsnakeT
  have h3 : snakeCase (String.mk (joinU (wordsL s.toList))) =
      String.mk (joinU (wordsL (joinU (wordsL s.toList)))) :=
    snakeCase_of_snake hslt
  have h4 : wordsL (joinU (wordsL s.toList)) = wordsL s.toList :=
    wordsFuel_rescan (wordsL s.toList) (joinU (wordsL s.toList)).length le_rfl hsh
  rw [h1, h2, h3, h4, ← h1]

/-! ### Properties of uniq (lodash first-occurrence deduplication) -/

theorem mem_uniqAux {x : String} :
    ∀ (l seen : List String), x ∈ uniqAux seen l ↔ x ∈ l ∧ x ∉ seen := by
  intro l
  induction l with
  | nil => intro seen; simp [uniqAux]
  | cons y ys ih =>
    intro seen
    by_cases hy : y ∈ seen
    · rw [show uniqAux seen (y :: ys) = uniqAux seen ys from by simp [uniqAux, hy]]
      rw [ih seen]
      constructor
      · rintro ⟨h1, h2⟩; exact ⟨List.mem_cons_of_mem y h1, h2⟩
      · rintro ⟨h1, h2⟩
        rcases List.mem_cons.mp h1 with rfl | h3
        · exact absurd hy h2
        · exact ⟨h3, h2⟩
    · rw [show uniqAux seen (y :: ys) = y :: uniqAux (y :: seen) ys from by
        simp [uniqAux, hy]]
      constructor
      · intro h
        rcases List.mem_cons.mp h with rfl | h3
        · exact ⟨by simp, hy⟩
        · have := (ih (y :: seen)).mp h3
          exact ⟨List.mem_cons_of_mem y this.1,
            fun hx => this.2 (List.mem_cons_of_mem y hx)⟩
      · rintro ⟨h1, h2⟩
        rcases List.mem_cons.mp h1 with rfl | h3
        · exact List.mem_cons_self x _
        · by_cases hxy : x = y
          · subst hxy; exact List.mem_cons_self x _
          · exact List.mem_cons_of_mem y ((ih (y :: seen)).mpr
              ⟨h3, fun hx => by
                rcases List.mem_cons.mp hx with h4 | h4
                · exact hxy h4
                · exact h2 h4⟩)

theorem nodup_uniqAux : ∀ (l seen : List String), (uniqAux seen l).Nodup := by
  intro l
  induction l with
  | nil => intro seen; simp [uniqAux]
  | cons y ys ih =>
    intro seen
    by_cases hy : y ∈ seen
    · rw [show uniqAux seen (y :: ys) = uniqAux seen ys from by simp [uniqAux, hy]]
      exact ih seen
    · rw [show uniqAux seen (y :: ys) = y :: uniqAux (y :: seen) ys from by
        simp [uniqAux, hy]]
      refine List.Nodup.cons ?_ (ih (y :: seen))
      intro hmem
      exact ((mem_uniqAux ys (y :: seen)).mp hmem).2 (by simp)

theorem pairwise_indexOf_uniqAux :
    ∀ (l seen : List String),
      List.Pairwise (fun a b => l.indexOf a < l.indexOf b) (uniqAux seen l) := by
  intro l
  induction l with
  | nil => intro seen; simp [uniqAux]
  | cons y ys ih =>
    intro seen
    have hmem : ∀ {x : String} {seen' : List String},
        x ∈ uniqAux seen' ys → x ∈ ys ∧ x ∉ seen' := by
      intro x seen' h
      exact (mem_uniqAux ys seen').mp h
    by_cases hy : y ∈ seen
    · rw [show uniqAux seen (y :: ys) = uniqAux seen ys from by simp [uniqAux, hy]]
      refine (ih seen).imp_of_mem ?_
      intro a b ha hb hab
      have hane : y ≠ a := fun h => (hmem ha).2 (h ▸ hy)
      have hbne : y ≠ b := fun h => (hmem hb).2 (h ▸ hy)
      rw [List.indexOf_cons_ne ys hane, List.indexOf_cons_ne ys hbne]
      omega
    · rw [show uniqAux seen (y :: ys) = y :: uniqAux (y :: seen) ys from by
        simp [uniqAux, hy]]
      refine List.Pairwise.cons ?_ ?_
      · intro b hb
        have hbne : y ≠ b := fun h => (hmem hb).2 (h ▸ List.mem_cons_self y seen)
        rw [List.indexOf_cons_self, List.indexOf_cons_ne ys hbne]
        omega
      · refine (ih (y :: seen)).imp_of_mem ?_
        intro a b ha hb hab
        have hane : y ≠ a := fun h => (hmem ha).2 (h ▸ List.mem_cons_self y seen)
        have hbne : y ≠ b := fun h => (hmem hb).2 (h ▸ List.mem_cons_self y seen)
        rw [List.indexOf_cons_ne ys hane, List.indexOf_cons_ne ys hbne]
        omega

theorem mem_uniq {x : String} {l : List String} : x ∈ uniq l ↔ x ∈ l := by
  unfold uniq
  rw [mem_uniqAux l []]
  simp

theorem nodup_uniq (l : List String) : (uniq l).Nodup := nodup_uniqAux l []

theorem pairwise_indexOf_uniq (l : List String) :
    List.Pairwise (fun a b => l.indexOf a < l.indexOf b) (uniq l) :=
  pairwise_indexOf_uniqAux l []

/-! ### Fuel adequacy for the CrystalArray renderer -/

theorem jsonSize_pos : ∀ v : Json, 1 ≤ jsonSize v := by
  intro v
  cases v <;> simp [jsonSize]

theorem jsonSizeList_pos : ∀ xs : List Json, 1 ≤ jsonSizeList xs := by
  intro xs
  cases xs with
  | nil => simp [jsonSizeList]
  | cons v vs => simp only [jsonSizeList]; omega

theorem jsonSize_lt_of_mem {v : Json} :
    ∀ {xs : List Json}, v ∈ xs → jsonSize v < jsonSizeList xs := by
  intro xs
  induction xs with
  | nil => intro h; cases h
  | cons x xs ih =>
    intro h
    rcases List.mem_cons.mp h with rfl | h2
    · simp [jsonSizeList]; omega
    · have := ih h2
      simp only [jsonSizeList]
      omega

theorem crystal_fuel_irrel :
    ∀ fuel,
      (∀ v g, jsonSize v ≤ fuel → jsonSize v ≤ g →
        crystalElemTypeF fuel v = crystalElemTypeF g v) ∧
      (∀ xs g, jsonSizeList xs ≤ fuel → jsonSizeList xs ≤ g →
        crystalArrayToStringF fuel xs = crystalArrayToStringF g xs) := by
  intro fuel
  induction fuel with
  | zero =>
    constructor
    · intro v g h _; exact absurd h (by have := jsonSize_pos v; omega)
    · intro xs g h _; exact absurd h (by have := jsonSizeList_pos xs; omega)
  | succ fuel ih =>
    constructor
    · intro v g hf hg
      obtain ⟨g', rfl⟩ : ∃ g', g = g' + 1 :=
        ⟨g - 1, by have := jsonSize_pos v; omega⟩
      cases v with
      | arr xs =>
        show crystalArrayToStringF fuel xs = crystalArrayToStringF g' xs
        refine ih.2 xs g' ?_ ?_ <;>
          simp only [jsonSize] at hf hg <;> omega
      | null => rfl
      | bool b => rfl
      | num q => rfl
      | str t => rfl
      | obj props => rfl
    · intro xs g hf hg
      obtain ⟨g', rfl⟩ : ∃ g', g = g' + 1 :=
        ⟨g - 1, by have := jsonSizeList_pos xs; omega⟩
      show (let u := uniq (xs.map (crystalElemTypeF fuel))
        "Array(" ++ joinSep " | " (if u.isEmpty then ["JSON::Any"] else u) ++ ")") =
        (let u := uniq (xs.map (crystalElemTypeF g'))
        "Array(" ++ joinSep " | " (if u.isEmpty then ["JSON::Any"] else u) ++ ")")
      have hmap : xs.map (crystalElemTypeF fuel) = xs.map (crystalElemTypeF g') := by
        refine List.map_congr_left ?_
        intro x hx
        have hx1 : jsonSize x < jsonSizeList xs := jsonSize_lt_of_mem hx
        exact ih.1 x g' (by omega) (by omega)
      rw [hmap]

theorem crystalElemTypeF_eq {fuel : Nat} {v : Json} (h : jsonSize v ≤ fuel) :
    crystalElemTypeF fuel v = crystalElemType v :=
  (crystal_fuel_irrel fuel).1 v (jsonSize v) h le_rfl

/-- The closed form of CrystalArray.toString. -/
theorem crystalArrayToString_eq (xs : List Json) :
    crystalArrayToString xs =
      "Array(" ++ joinSep " | "
        (if (uniq (xs.map crystalElemType)).isEmpty then ["JSON::Any"]
          else uniq (xs.map crystalElemType)) ++ ")" := by
  unfold crystalArrayToString
  obtain ⟨m, hm⟩ : ∃ m, jsonSizeList xs = m + 1 :=
    ⟨jsonSizeList xs - 1, by have := jsonSizeList_pos xs; omega⟩
  rw [hm]
  show (let u := uniq (xs.map (crystalElemTypeF m))
    "Array(" ++ joinSep " | " (if u.isEmpty then ["JSON::Any"] else u) ++ ")") = _
  have hmap : xs.map (crystalElemTypeF m) = xs.map crystalElemType := by
    refine List.map_congr_left ?_
    intro x hx
    have hx1 : jsonSize x < jsonSizeList xs := jsonSize_lt_of_mem hx
    exact crystalElemTypeF_eq (by omega)
  rw [hmap]

/-! ### Unfolding the element renderer of CrystalArray -/

theorem crystalElemType_obj (props : List (String × Json)) :
    crystalElemType (Json.obj props) = crystalNamedTupleToString props := by
  unfold crystalElemType
  obtain ⟨m, hm⟩ : ∃ m, jsonSize (Json.obj props) = m + 1 :=
    ⟨jsonSize (Json.obj props) - 1, by have := jsonSize_pos (Json.obj props); omega⟩
  rw [hm]
  rfl

theorem crystalElemType_arr (xs : List Json) :
    crystalElemType (Json.arr xs) = crystalArrayToString xs := by
  unfold crystalElemType
  have hm : jsonSize (Json.arr xs) = jsonSizeList xs + 1 := by
    simp [jsonSize]; omega
  rw [hm]
  show crystalArrayToStringF (jsonSizeList xs) xs = crystalArrayToString xs
  rfl

theorem strData_append (a b : String) : (a ++ b).data = a.data ++ b.data := rfl

theorem isPrefixOf_cons_ne {a b : Char} {as bs : List Char} (h : (a == b) = false) :
    List.isPrefixOf (a :: as) (b :: bs) = false := by
  simp only [List.isPrefixOf, h, Bool.false_and]

/-! ### The claims -/

/-- C1, counterexample: the scalar type inferer maps both boundary
values -2147483648 and 2147483647 to Int64, not Int32, because the
source compares with strict inequalities. -/
theorem c1_boundary_int64_counterexample :
    crystalType (Json.num 2147483647) = "Int64" ∧
    crystalType (Json.num (-2147483648)) = "Int64" ∧
    ("Int64" : String) ≠ "Int32" := by
  refine ⟨by decide, by decide, by decide⟩

/-- C1, amended: for a number with zero fractional part the inferer
returns Int32 exactly when the value lies in the open interval
(-2147483648, 2147483647) and Int64 otherwise, so the boundary values
themselves infer as Int64; any number with non-zero fractional part
infers as Float64. -/
theorem c1_crystalType_int_ranges :
    ∀ q : ℚ,
      (q.den = 1 →
        (((-2147483648 : ℚ) < q ∧ q < (2147483647 : ℚ)) →
          crystalType (Json.num q) = "Int32") ∧
        ((q ≤ (-2147483648 : ℚ) ∨ (2147483647 : ℚ) ≤ q) →
          crystalType (Json.num q) = "Int64")) ∧
      (q.den ≠ 1 → crystalType (Json.num q) = "Float64") := by
  intro q
  refine ⟨fun hden => ⟨fun hrange => ?_, fun hout => ?_⟩, fun hden => ?_⟩
  · show (if q.den = 1 then
        if (-2147483648 : ℚ) < q ∧ q < (2147483647 : ℚ) then "Int32" else "Int64"
      else "Float64") = "Int32"
    rw [if_pos hden, if_pos hrange]
  · have hneg : ¬ ((-2147483648 : ℚ) < q ∧ q < (2147483647 : ℚ)) := by
      rintro ⟨h1, h2⟩
      rcases hout with h | h
      · exact absurd h1 (not_lt.mpr h)
      · exact absurd h2 (not_lt.mpr h)
    show (if q.den = 1 then
        if (-2147483648 : ℚ) < q ∧ q < (2147483647 : ℚ) then "Int32" else "Int64"
      else "Float64") = "Int64"
    rw [if_pos hden, if_neg hneg]
  · show (if q.den = 1 then
        if (-2147483648 : ℚ) < q ∧ q < (2147483647 : ℚ) then "Int32" else "Int64"
      else "Float64") = "Float64"
    rw [if_neg hden]

/-- C1, witness: the amended theorem applied to 12 (Int32),
3000000000 (Int64) and one half (Float64). -/
theorem c1_crystalType_int_ranges_witness :
    crystalType (Json.num 12) = "Int32" ∧
    crystalType (Json.num 3000000000) = "Int64" ∧
    crystalType (Json.num ⟨1, 2, by decide, by decide⟩) = "Float64" :=
  ⟨((c1_crystalType_int_ranges 12).1 (by decide)).1 (by decide),
   ((c1_crystalType_int_ranges 3000000000).1 (by decide)).2 (Or.inr (by decide)),
   (c1_crystalType_int_ranges ⟨1, 2, by decide, by decide⟩).2 (by decide)⟩

set_option maxRecDepth 8192 in
/-- C2: on input with field user holding a nested object, the legacy
parseClass writes the original key user as the field type reference,
while the deferred subclass declaration is renamed to User; the
reference therefore does not equal the declared subclass name. -/
theorem c2_ts_subclass_reference_mismatch :
    tsParseScope "AutoGenerated" false
        (Json.obj [("user", Json.obj [("id", Json.num 1)])]) = tsNestedUserOutput ∧
    List.IsInfix "type: user \x7d".toList tsNestedUserOutput.toList ∧
    List.IsInfix "class User".toList tsNestedUserOutput.toList ∧
    ¬ List.IsInfix "type: User".toList tsNestedUserOutput.toList := by
  refine ⟨by decide, by decide, by decide, by decide⟩

/-- C3: the array type synthesizer maps elements to type strings in
input order, removes duplicates keeping the first occurrence of each
distinct string (the surviving list has no duplicates, has exactly the
mapped strings as members, and is ordered by first occurrence), and
wraps the union in Array(...); the all-null array renders as
Array(JSON::Any) in both implementations. -/
theorem c3_array_union_dedup :
    (∀ xs : List Json,
      (uniq (xs.map crystalElemType)).Nodup ∧
      (∀ t, t ∈ uniq (xs.map crystalElemType) ↔ t ∈ xs.map crystalElemType) ∧
      List.Pairwise
        (fun a b =>
          (xs.map crystalElemType).indexOf a < (xs.map crystalElemType).indexOf b)
        (uniq (xs.map crystalElemType)) ∧
      crystalArrayToString xs =
        "Array(" ++ joinSep " | "
          (if (uniq (xs.map crystalElemType)).isEmpty then ["JSON::Any"]
            else uniq (xs.map crystalElemType)) ++ ")") ∧
    crystalArrayToString [Json.null, Json.null] = "Array(JSON::Any)" ∧
    tsArrayType "AutoGenerated" false [Json.null, Json.null] = "Array(JSON::Any)" := by
  refine ⟨fun xs => ⟨nodup_uniq _, fun t => mem_uniq, pairwise_indexOf_uniq _,
    crystalArrayToString_eq xs⟩, by decide, by decide⟩

theorem j2cParseF_ne_dedicated :
    ∀ (jp : String → Except Unit Json) (aN comp : Bool) (bcn : String) (fuel : Nat)
      (v : Json),
      j2cParseF jp aN comp bcn fuel v ≠ Except.error JsErrorKind.jsonParseErr := by
  intro jp aN comp bcn fuel
  induction fuel with
  | zero => intro v; simp [j2cParseF]
  | succ fuel ih =>
    intro v
    cases v with
    | str s =>
      show (match jp (rewriteDotZero s) with
        | .error _ => Except.error JsErrorKind.syntaxErr
        | .ok v2 => j2cParseF jp aN comp bcn fuel v2) ≠
          Except.error JsErrorKind.jsonParseErr
      cases hjp : jp (rewriteDotZero s) with
      | error e => simp
      | ok v2 => simpa using ih v2
    | arr xs => simp [j2cParseF]
    | obj props => simp [j2cParseF]
    | null => simp [j2cParseF]
    | bool b => simp [j2cParseF]
    | num q => simp [j2cParseF]

/-- C4: the top-level parse never produces the dedicated
JsonParseError, at any recursion depth and on any value: the class is
defined but never thrown, so a JSON.parse failure escapes as the
native SyntaxError and unsupported top-level values raise the generic
Error. -/
theorem c4_parse_never_raises_dedicated_error :
    (∀ (jp : String → Except Unit Json) (aN comp : Bool) (bcn : String) (fuel : Nat)
      (v : Json),
      j2cParseF jp aN comp bcn fuel v ≠ Except.error JsErrorKind.jsonParseErr) ∧
    (∀ (jp : String → Except Unit Json) (aN comp : Bool) (bcn : String) (v : Json),
      j2cParse jp aN comp bcn v ≠ Except.error JsErrorKind.jsonParseErr) :=
  ⟨j2cParseF_ne_dedicated,
   fun jp aN comp bcn v => j2cParseF_ne_dedicated jp aN comp bcn _ v⟩

/-- C5: inside CrystalArray, an object element renders as the inline
CrystalNamedTuple text, which always begins with NamedTuple(, and no
element rendering ever begins with the text class, so no array element
contributes a named class declaration. -/
theorem c5_array_object_elements_inline :
    (∀ props, crystalElemType (Json.obj props) = crystalNamedTupleToString props) ∧
    (∀ props, ∃ r, crystalNamedTupleToString props = "NamedTuple(" ++ r) ∧
    (∀ v, List.isPrefixOf "class".toList (crystalElemType v).toList = false) := by
  refine ⟨crystalElemType_obj, ?_, ?_⟩
  · intro props
    refine ⟨joinSep ", "
      (props.map (fun kv => formatKey kv.1 ++ ": " ++ crystalType kv.2)) ++ ")", ?_⟩
    unfold crystalNamedTupleToString
    rw [String.append_assoc]
  · intro v
    cases v with
    | null => decide
    | bool b =>
      have h : crystalElemType (Json.bool b) = "Bool" := by
        unfold crystalElemType
        rw [show jsonSize (Json.bool b) = 1 from by simp [jsonSize]]
        rfl
      rw [h]; decide
    | str t =>
      have h : crystalElemType (Json.str t) = "String" := by
        unfold crystalElemType
        rw [show jsonSize (Json.str t) = 1 from by simp [jsonSize]]
        rfl
      rw [h]; decide
    | num q =>
      have h : crystalElemType (Json.num q) = crystalType (Json.num q) := by
        unfold crystalElemType
        rw [show jsonSize (Json.num q) = 1 from by simp [jsonSize]]
        rfl
      rw [h]
      show List.isPrefixOf "class".toList
        (if q.den = 1 then
          if (-2147483648 : ℚ) < q ∧ q < (2147483647 : ℚ) then "Int32" else "Int64"
        else "Float64").toList = false
      split_ifs <;> decide
    | arr xs =>
      rw [crystalElemType_arr, crystalArrayToString_eq]
      simp only [String.toList, strData_append]
      simp only [List.cons_append]
      exact isPrefixOf_cons_ne (by decide)
    | obj props =>
      rw [crystalElemType_obj]
      unfold crystalNamedTupleToString
      simp only [String.toList, strData_append]
      simp only [List.cons_append]
      exact isPrefixOf_cons_ne (by decide)

/-- C6: the top-level parse of raw text first replaces every literal
occurrence of .0 with .1 anywhere in the text (the list equations
characterize the global left-to-right replace, and the concrete case
rewrites inside a string literal), then hands the rewritten text to
the JSON parser and re-dispatches the parsed value through parse
itself (so a string result is rewritten and parsed again);
already-parsed structured input, arrays and objects, dispatches with
no rewrite and no call to the JSON parser. -/
theorem c6_rewrite_then_parse :
    (∀ t, rewriteDotZeroL ('.' :: '0' :: t) = '.' :: '1' :: rewriteDotZeroL t) ∧
    (∀ (c : Char) t, c ≠ '.' → rewriteDotZeroL (c :: t) = c :: rewriteDotZeroL t) ∧
    (∀ (c2 : Char) t, c2 ≠ '0' →
      rewriteDotZeroL ('.' :: c2 :: t) = '.' :: rewriteDotZeroL (c2 :: t)) ∧
    rewriteDotZeroL [] = [] ∧
    (∀ jp aN comp bcn fuel s e, jp (rewriteDotZero s) = Except.error e →
      j2cParseF jp aN comp bcn (fuel + 1) (Json.str s) =
        Except.error JsErrorKind.syntaxErr) ∧
    (∀ jp aN comp bcn fuel s v, jp (rewriteDotZero s) = Except.ok v →
      j2cParseF jp aN comp bcn (fuel + 1) (Json.str s) =
        j2cParseF jp aN comp bcn fuel v) ∧
    (∀ jp aN comp bcn fuel xs,
      j2cParseF jp aN comp bcn (fuel + 1) (Json.arr xs) =
        Except.ok (some ("alias AutoGenerated = " ++ crystalArrayToString xs))) ∧
    (∀ jp aN comp bcn fuel props,
      j2cParseF jp aN comp bcn (fuel + 1) (Json.obj props) =
        Except.ok (crystalClassParse aN comp bcn props 0)) ∧
    rewriteDotZero "\"v.0x\": 2.0.0" = "\"v.1x\": 2.1.1" := by
  refine ⟨?_, ?_, ?_, rfl, ?_, ?_, fun _ _ _ _ _ _ => rfl, fun _ _ _ _ _ _ => rfl,
    by decide⟩
  · intro t
    show (if ('.' : Char) = '.' ∧ ('0' : Char) = '0'
      then '.' :: '1' :: rewriteDotZeroL t
      else '.' :: rewriteDotZeroL ('0' :: t)) = '.' :: '1' :: rewriteDotZeroL t
    rw [if_pos ⟨rfl, rfl⟩]
  · intro c t hc
    cases t with
    | nil => rfl
    | cons c2 t2 =>
      show (if c = '.' ∧ c2 = '0' then '.' :: '1' :: rewriteDotZeroL t2
        else c :: rewriteDotZeroL (c2 :: t2)) = c :: rewriteDotZeroL (c2 :: t2)
      rw [if_neg (fun h => hc h.1)]
  · intro c2 t hc
    show (if ('.' : Char) = '.' ∧ c2 = '0' then '.' :: '1' :: rewriteDotZeroL t
      else '.' :: rewriteDotZeroL (c2 :: t)) = '.' :: rewriteDotZeroL (c2 :: t)
    rw [if_neg (fun h => hc h.2)]
  · intro jp aN comp bcn fuel s e h
    show (match jp (rewriteDotZero s) with
      | .error _ => Except.error JsErrorKind.syntaxErr
      | .ok v2 => j2cParseF jp aN comp bcn fuel v2) =
        Except.error JsErrorKind.syntaxErr
    rw [h]
  · intro jp aN comp bcn fuel s v h
    show (match jp (rewriteDotZero s) with
      | .error _ => Except.error JsErrorKind.syntaxErr
      | .ok v2 => j2cParseF jp aN comp bcn fuel v2) =
        j2cParseF jp aN comp bcn fuel v
    rw [h]

/-- C6, witness: the rewrite equations applied at concrete characters,
the string branch applied to concrete parsers, including one whose
result is again a string and is re-dispatched, and the rewrite-free
array branch. -/
theorem c6_rewrite_then_parse_witness :
    rewriteDotZeroL ['a', '.', '0'] = ['a', '.', '1'] ∧
    rewriteDotZeroL ['.', '2'] = ['.', '2'] ∧
    j2cParseF (fun _ => Except.ok (Json.str "b")) false false "AutoGenerated" 2
        (Json.str "a.0") =
      j2cParseF (fun _ => Except.ok (Json.str "b")) false false "AutoGenerated" 1
        (Json.str "b") ∧
    j2cParseF (fun _ => Except.error ()) false false "AutoGenerated" 1 (Json.str "x") =
      Except.error JsErrorKind.syntaxErr ∧
    j2cParseF (fun _ => Except.error ()) false false "AutoGenerated" 1 (Json.arr []) =
      Except.ok (some ("alias AutoGenerated = " ++ crystalArrayToString [])) := by
  refine ⟨?_, ?_, ?_, ?_, ?_⟩
  · rw [c6_rewrite_then_parse.2.1 'a' ['.', '0'] (by decide),
      c6_rewrite_then_parse.1 [], c6_rewrite_then_parse.2.2.2.1]
  · rw [c6_rewrite_then_parse.2.2.1 '2' [] (by decide)]
    rfl
  · exact c6_rewrite_then_parse.2.2.2.2.2.1 (fun _ => Except.ok (Json.str "b"))
      false false "AutoGenerated" 1 "a.0" (Json.str "b") rfl
  · exact c6_rewrite_then_parse.2.2.2.2.1 (fun _ => Except.error ())
      false false "AutoGenerated" 0 "x" () rfl
  · exact c6_rewrite_then_parse.2.2.2.2.2.2.1 (fun _ => Except.error ())
      false false "AutoGenerated" 0 []

/-- C7: a field entry carries the explicit original-key marker exactly
when the formatted key differs from the original key: when they agree
the entry is the plain form, when they differ the marker with the
original key is inserted; and for the key 1abc the formatted key is
one_abc and the emitted class carries the marker. -/
theorem c7_key_marker_iff :
    (∀ (aN : Bool) (lvl : Nat) (k tp : String), formatKey k = k →
      tsEntry aN lvl k tp =
        tsIndent lvl ++ formatKey k ++ ": \x7b " ++
          (if aN then "nilable: true, " else "") ++ tp) ∧
    (∀ (aN : Bool) (lvl : Nat) (k tp : String), formatKey k ≠ k →
      tsEntry aN lvl k tp =
        tsIndent lvl ++ formatKey k ++ ": \x7b " ++ ("key: \"" ++ k ++ "\", ") ++
          (if aN then "nilable: true, " else "") ++ tp) ∧
    formatKey "1abc" = "one_abc" ∧
    tsParseScope "AutoGenerated" false (Json.obj [("1abc", Json.bool true)]) =
      "class AutoGenerated\n\n  JSON.mapping(\x7b\n    one_abc: \x7b key: \"1abc\", type: Bool \x7d,\n  \x7d)\n\nend\n" := by
  refine ⟨?_, ?_, by decide, by decide⟩
  · intro aN lvl k tp h
    unfold tsEntry
    rw [if_neg (fun h2 => h2 h.symm)]
    rw [String.append_assoc, String.append_assoc, String.append_assoc,
      String.append_assoc, String.append_assoc]
    rw [show ("" : String) ++ ((if aN then "nilable: true, " else "") ++ tp) =
      (if aN then "nilable: true, " else "") ++ tp from by
        rw [String.empty_append]]
    rw [← String.append_assoc, ← String.append_assoc]
  · intro aN lvl k tp h
    unfold tsEntry
    rw [if_pos (Ne.symm h)]

/-- C7, witness: the two entry forms at concrete keys, one unchanged
by formatting and one renamed. -/
theorem c7_key_marker_iff_witness :
    tsEntry false 2 "id" "type: Int32 \x7d,\n" =
      tsIndent 2 ++ formatKey "id" ++ ": \x7b " ++
        (if false then "nilable: true, " else "") ++ "type: Int32 \x7d,\n" ∧
    tsEntry false 2 "1abc" "type: Bool \x7d,\n" =
      tsIndent 2 ++ formatKey "1abc" ++ ": \x7b " ++ ("key: \"" ++ "1abc" ++ "\", ") ++
        (if false then "nilable: true, " else "") ++ "type: Bool \x7d,\n" :=
  ⟨c7_key_marker_iff.1 false 2 "id" "type: Int32 \x7d,\n" (by decide),
   c7_key_marker_iff.2.1 false 2 "1abc" "type: Bool \x7d,\n" (by decide)⟩

/-- C8: the empty array renders as Array(JSON::Any) in both
implementations: the union falls back to the single member JSON::Any
rather than an empty union. -/
theorem c8_empty_array_fallback :
    crystalArrayToString [] = "Array(JSON::Any)" ∧
    tsArrayType "AutoGenerated" false [] = "Array(JSON::Any)" := by
  refine ⟨by decide, by decide⟩

/-- C9: formatKey is a total function on strings mapping the empty key
to the empty string, and it is idempotent on every key that is already
snake_case with no leading digit. -/
theorem c9_formatKey_total_idempotent :
    formatKey "" = "" ∧
    ∀ s : String, isSnakeIdent s = true → formatKey (formatKey s) = formatKey s :=
  ⟨rfl, fun _ hs => formatKey_idem_snake hs⟩

/-- C9, witness: idempotence at the concrete snake_case key ab_c1. -/
theorem c9_formatKey_total_idempotent_witness :
    isSnakeIdent "ab_c1" = true ∧
    formatKey (formatKey "ab_c1") = formatKey "ab_c1" :=
  ⟨by decide, c9_formatKey_total_idempotent.2 "ab_c1" (by decide)⟩

/-- C10: formatKey is not injective: the distinct keys aB and a_b
format to the same name a_b, and the class synthesized from an object
holding both keys emits two fields with the same formatted name. -/
theorem c10_formatKey_not_injective :
    ("aB" : String) ≠ "a_b" ∧
    formatKey "aB" = formatKey "a_b" ∧
    crystalClassParse false false "AutoGenerated"
        [("aB", Json.num 1), ("a_b", Json.num 2)] 0 =
      some "class AutoGenerated\n\n  JSON.mapping(\x7b\n    a_b: \x7b key: \"aB\", type: Int32 \x7d,\n    a_b: \x7b type: Int32 \x7d\n  \x7d)\n\nend\n" := by
  refine ⟨by decide, by decide, by decide⟩
